import Mathlib

/-!
# Verification of the CryptoboxParser relay core

A shallow embedding, in Lean 4, of the message-relay core of `src/main.py`:
the parse/format pipeline (`strip_html_tags`, `parse_and_format_message`),
the handler decision logic (`new_message_handler`), the per-target dispatch
loop (`forward_to_targets`), and a small-step interleaving semantics of the
scheduler state (`message_queue`, `is_forwarding`, `last_forward_time`,
`process_queue` drain tasks) under the cooperative event-loop model.

Strings are modelled as `List Char`.  Python regular expressions used by the
source are embedded through a small backtracking engine (`mrun`) operating on
flattened pattern lists, reproducing leftmost-search and greedy-with-
backtracking semantics for the three patterns the source uses.  Character
classes `\s` and `\d` are modelled on the Python `str` whitespace set and
ASCII digits respectively.

Note on source text encoding: the emoji in `src/main.py` are stored mojibake.
The `m1` pattern literal is the two characters U+00AC U+00B1, the `m3`
pattern literal and the three formatted-body line prefixes start with
U+F8FF followed by Latin-1 letters.  The embedding reproduces those exact
code points.
-/

namespace Cryptobox

/-! ## Character classes and Python string helpers -/

/-- The Python `str` whitespace set: characters stripped by `str.strip()` and
matched by the regex class `\s` (ASCII whitespace, the C0/C1 separators, and
the Unicode space characters). -/
def isPyWhitespace (c : Char) : Bool :=
  c.val = 0x09 || c.val = 0x0A || c.val = 0x0B || c.val = 0x0C || c.val = 0x0D ||
  (0x1C ≤ c.val && c.val ≤ 0x1F) || c.val = 0x20 || c.val = 0x85 || c.val = 0xA0 ||
  c.val = 0x1680 || (0x2000 ≤ c.val && c.val ≤ 0x200A) ||
  c.val = 0x2028 || c.val = 0x2029 || c.val = 0x202F || c.val = 0x205F || c.val = 0x3000

/-- Line-boundary characters recognised by Python `str.splitlines`. -/
def isLineBoundary (c : Char) : Bool :=
  c.val = 0x0A || c.val = 0x0B || c.val = 0x0C || c.val = 0x0D ||
  c.val = 0x1C || c.val = 0x1D || c.val = 0x1E || c.val = 0x85 ||
  c.val = 0x2028 || c.val = 0x2029

/-- ASCII digit, the model of the regex classes `[0-9]` and `\d`. -/
def isDigitB (c : Char) : Bool := '0' ≤ c && c ≤ '9'

/-- The regex class `[A-Za-z0-9_]`. -/
def isWordB (c : Char) : Bool :=
  ('A' ≤ c && c ≤ 'Z') || ('a' ≤ c && c ≤ 'z') || isDigitB c || c = '_'

/-- The regex class `[A-Z0-9]`. -/
def isUpperDigitB (c : Char) : Bool := ('A' ≤ c && c ≤ 'Z') || isDigitB c

/-- ASCII lower-casing of one character, the model of Python `str.lower`
restricted to the ASCII range (the only range relevant to the literals the
source compares against). -/
def lowerChar (c : Char) : Char :=
  if 'A' ≤ c && c ≤ 'Z' then Char.ofNat (c.toNat + 32) else c

/-- Python `str.splitlines`, accumulator form; `\r\n` counts as one boundary
and a trailing boundary does not produce a final empty line. -/
def splitlinesAux : List Char → List Char → List (List Char)
  | [], acc => if acc.isEmpty then [] else [acc.reverse]
  | '\r' :: '\n' :: rest, acc => acc.reverse :: splitlinesAux rest []
  | c :: rest, acc =>
    if isLineBoundary c then acc.reverse :: splitlinesAux rest []
    else splitlinesAux rest (c :: acc)

/-- Python `str.splitlines`. -/
def splitlines (cs : List Char) : List (List Char) := splitlinesAux cs []

/-- Python `str.strip()` (no argument): drop leading and trailing whitespace. -/
def stripChars (cs : List Char) : List Char :=
  ((cs.dropWhile isPyWhitespace).reverse.dropWhile isPyWhitespace).reverse

/-- Boolean prefix test on character lists. -/
def startsWithSeq : List Char → List Char → Bool
  | [], _ => true
  | _ :: _, [] => false
  | a :: as, b :: bs => a = b && startsWithSeq as bs

/-- Boolean substring containment, the model of Python `needle in haystack`. -/
def containsSeq (needle : List Char) : List Char → Bool
  | [] => startsWithSeq needle []
  | c :: rest => startsWithSeq needle (c :: rest) || containsSeq needle rest

/-- One character of Python `html.escape(s)` (with its default `quote=True`):
the five markup-significant characters become entity references. -/
def htmlEscapeChar (c : Char) : List Char :=
  if c = '&' then "&amp;".toList
  else if c = '<' then "&lt;".toList
  else if c = '>' then "&gt;".toList
  else if c = Char.ofNat 34 then "&quot;".toList
  else if c = Char.ofNat 39 then "&#x27;".toList
  else [c]

/-- Python `html.escape`: the source's sequential `str.replace` chain (`&`
first, then `<`, `>`, `"`, `'`) coincides with this character map because no
replacement output contains a character replaced by a later step. -/
def htmlEscape (cs : List Char) : List Char := cs.flatMap htmlEscapeChar

/-- Single pass of `re.sub(r'<[^>]+>', '', text)`: outside any candidate
tag when the buffer is `none`; after an unmatched `<`, `some buf` holds the
characters read since (reversed).  A `>` with a non-empty buffer closes the
tag (everything dropped); a `>` right after `<` matches nothing (the regex
needs at least one inner character) and both are kept; at end of input an
unterminated `<...` is kept verbatim.  The regex consumes from each `<` to
the first following `>` (`[^>]` also matches `<`), which is exactly this
scan. -/
def shtAux : List Char → Option (List Char) → List Char
  | [], none => []
  | [], some buf => '<' :: buf.reverse
  | c :: rest, none =>
    if c = '<' then shtAux rest (some [])
    else c :: shtAux rest none
  | c :: rest, some buf =>
    if c = '>' then
      if buf.isEmpty then '<' :: '>' :: shtAux rest none
      else shtAux rest none
    else shtAux rest (some (c :: buf))

/-- The source's `strip_html_tags`: Python `re.sub(r'<[^>]+>', '', text)`. -/
def strip_html_tags (cs : List Char) : List Char := shtAux cs none

/-- The zero-width characters removed by the source before line splitting:
Python `re.sub` over the class `[​‌‍﻿]`. -/
def isZeroWidth (c : Char) : Bool :=
  c.val = 0x200B || c.val = 0x200C || c.val = 0x200D || c.val = 0xFEFF

/-! ## A small backtracking regex engine

The three patterns of the source use only literals, character classes, the
greedy quantifiers `*`, `+`, `?` over single-character classes, and capture
groups over consecutive items.  A pattern is a flat list of items with
explicit group-open/group-close markers, so the matcher is structurally
recursive on the pattern and evaluates inside the kernel.  Alternatives are
produced in backtracking priority order (greedy first), reproducing CPython
`re` semantics for this fragment. -/

/-- One item of a flattened regex pattern. -/
inductive RItem where
  | lit (c : Char)
  | one (p : Char → Bool)
  | star (p : Char → Bool)
  | plus (p : Char → Bool)
  | opt (p : Char → Bool)
  | gopen (n : Nat)
  | gclose (n : Nat)

/-- Matcher state: finished captures, and the currently open groups
(innermost first) together with the text they have consumed so far. -/
structure MState where
  caps : List (Nat × List Char)
  openG : List (Nat × List Char)

/-- Record a consumed chunk of text against every open group. -/
def MState.add (st : MState) (pre : List Char) : MState :=
  { caps := st.caps, openG := st.openG.map (fun g => (g.1, g.2 ++ pre)) }

/-- All splits `cs = pre ++ suf` with `pre` drawn from the maximal prefix of
characters satisfying `p`, longest `pre` first (greedy order). -/
def npSplits (p : Char → Bool) (cs : List Char) : List (List Char × List Char) :=
  ((List.range ((cs.takeWhile p).length + 1)).reverse).map
    (fun i => (cs.take i, cs.drop i))

/-- Run a flattened pattern against `cs` from the current position, returning
every way the pattern can match a prefix of `cs`, as (final matcher state,
remaining characters) pairs in backtracking priority order. -/
def mrun : List RItem → List Char → MState → List (MState × List Char)
  | [], cs, st => [(st, cs)]
  | .lit _ :: _, [], _ => []
  | .lit c :: rs, d :: ds, st => if d = c then mrun rs ds (st.add [d]) else []
  | .one _ :: _, [], _ => []
  | .one p :: rs, d :: ds, st => if p d then mrun rs ds (st.add [d]) else []
  | .star p :: rs, cs, st =>
      (npSplits p cs).flatMap (fun pr => mrun rs pr.2 (st.add pr.1))
  | .plus p :: rs, cs, st =>
      ((npSplits p cs).filter (fun pr => !pr.1.isEmpty)).flatMap
        (fun pr => mrun rs pr.2 (st.add pr.1))
  | .opt _ :: rs, [], st => mrun rs [] st
  | .opt p :: rs, d :: ds, st =>
      if p d then mrun rs ds (st.add [d]) ++ mrun rs (d :: ds) st
      else mrun rs (d :: ds) st
  | .gopen n :: rs, cs, st => mrun rs cs { st with openG := (n, []) :: st.openG }
  | .gclose _ :: rs, cs, st =>
      match st.openG with
      | [] => []
      | g :: gs => mrun rs cs { caps := st.caps ++ [g], openG := gs }

/-- Python `re.search`: try the pattern at each start position from the left,
and at the first position with any match return the captures of the
highest-priority one. -/
def searchCaps (pat : List RItem) : List Char → Option (List (Nat × List Char))
  | [] =>
    match mrun pat [] ⟨[], []⟩ with
    | r :: _ => some r.1.caps
    | [] => none
  | c :: ds =>
    match mrun pat (c :: ds) ⟨[], []⟩ with
    | r :: _ => some r.1.caps
    | [] => searchCaps pat ds

/-- Python `match.group n`: the first capture recorded for group `n`. -/
def capture (caps : List (Nat × List Char)) (n : Nat) : List Char :=
  match caps.find? (fun x => x.1 = n) with
  | some x => x.2
  | none => []

/-! ## The three patterns of `parse_and_format_message`

The pattern literals reproduce the exact code points stored in the source
file (the emoji there are mojibake): `m1` starts with U+00AC U+00B1, `m3`
with U+F8FF U+00FC U+00E9 U+00C5. -/

/-- Line-1 pattern `m1`, the source regex
`¬±\s*([0-9]*\.?[0-9]+)\s*([A-Za-z0-9_]+)`. -/
def amountPat : List RItem :=
  [.lit (Char.ofNat 0xAC), .lit (Char.ofNat 0xB1), .star isPyWhitespace,
   .gopen 1, .star isDigitB, .opt (fun c => c = '.'), .plus isDigitB, .gclose 1,
   .star isPyWhitespace, .gopen 2, .plus isWordB, .gclose 2]

/-- A case-insensitive literal letter, for `re.IGNORECASE` (given in lower
case). -/
def ciLetter (c : Char) : RItem := .one (fun d => lowerChar d = c)

/-- Line-2 pattern `m2`, the source regex
`Claimed:\s*(\d+)\s*/\s*(\d+)` compiled with `re.IGNORECASE`. -/
def claimedPat : List RItem :=
  [ciLetter 'c', ciLetter 'l', ciLetter 'a', ciLetter 'i', ciLetter 'm',
   ciLetter 'e', ciLetter 'd', .lit ':', .star isPyWhitespace,
   .gopen 1, .plus isDigitB, .gclose 1, .star isPyWhitespace, .lit '/',
   .star isPyWhitespace, .gopen 2, .plus isDigitB, .gclose 2]

/-- Line-3 pattern `m3`, the source regex `\s*([A-Z0-9]+)` prefixed by the
four literal code points U+F8FF U+00FC U+00E9 U+00C5 stored in the file. -/
def codePat : List RItem :=
  [.lit (Char.ofNat 0xF8FF), .lit (Char.ofNat 0xFC), .lit (Char.ofNat 0xE9),
   .lit (Char.ofNat 0xC5), .star isPyWhitespace,
   .gopen 1, .plus isUpperDigitB, .gclose 1]

/-! ## `parse_and_format_message` -/

/-- The line-normalisation pipeline of `parse_and_format_message`: strip HTML
tags, remove zero-width characters, split into lines, strip each line and
keep the non-empty ones. -/
def normalizeLines (text : List Char) : List (List Char) :=
  let cleaned := strip_html_tags text
  let cleaned2 := cleaned.filter (fun c => !isZeroWidth c)
  ((splitlines cleaned2).map stripChars).filter (fun l => !l.isEmpty)

/-- The fields extracted by a successful `parse_and_format_message` run
(amount, token, claimed, total, code), before formatting. -/
structure ParsedFields where
  amount : List Char
  token : List Char
  claimed : List Char
  total : List Char
  code : List Char
deriving DecidableEq, Repr

/-- The matching phase of `parse_and_format_message`: reject empty input,
normalise lines, require at least three lines, and run the three searches on
lines 0, 1 and 2.  `amount`, `token` and `code` go through `.strip()` as in
the source; `claimed` and `total` do not. -/
def parseFields (text : List Char) : Option ParsedFields :=
  if text.isEmpty then none
  else if (normalizeLines text).length < 3 then none
  else
    match searchCaps amountPat ((normalizeLines text).getD 0 []) with
    | none => none
    | some caps1 =>
      match searchCaps claimedPat ((normalizeLines text).getD 1 []) with
      | none => none
      | some caps2 =>
        match searchCaps codePat ((normalizeLines text).getD 2 []) with
        | none => none
        | some caps3 =>
          some { amount := stripChars (capture caps1 1)
                 token := stripChars (capture caps1 2)
                 claimed := capture caps2 1
                 total := capture caps2 2
                 code := stripChars (capture caps3 1) }

/-- The two code points (U+F8FF, U+00FC) starting every formatted body line. -/
def moji : List Char := [Char.ofNat 0xF8FF, Char.ofNat 0xFC]

/-- The body built by `parse_and_format_message` on a successful match:
only `code` passes through `html.escape`; `amount`, `token`, `claimed` and
`total` are interpolated verbatim. -/
def format_body (f : ParsedFields) : List Char :=
  moji ++ [Char.ofNat 0xE9, Char.ofNat 0xC5] ++ " Code: <code>".toList ++
    htmlEscape f.code ++ "</code>".toList ++ ['\n'] ++
  moji ++ [Char.ofNat 0xED, Char.ofNat 0x221E] ++ " Amount: ".toList ++
    f.amount ++ [' '] ++ f.token ++ ['\n'] ++
  moji ++ [Char.ofNat 0xDF, Char.ofNat 0xDF] ++ " Progress: ".toList ++
    f.claimed ++ " / ".toList ++ f.total ++ ['\n', '\n'] ++
  "#Binance #RedPacketHub".toList

/-- The source's `parse_and_format_message`: `None` on any non-match, the
formatted body otherwise. -/
def parse_and_format_message (text : String) : Option String :=
  (parseFields text.toList).map (fun f => String.mk (format_body f))

/-! ## The handler's acceptance decision -/

/-- The hyperlink filter of `new_message_handler`: skip when the lower-cased
raw text contains `http://`, `https://` or `<a href=`. -/
def containsLink (raw : List Char) : Bool :=
  let low := raw.map lowerChar
  containsSeq "http://".toList low || containsSeq "https://".toList low ||
    containsSeq "<a href=".toList low

/-- The full accept/reject decision of `new_message_handler` for one inbound
text: `none` when the hyperlink filter fires or the parse fails, otherwise
the formatted body to forward. -/
def handlerDecision (raw : String) : Option String :=
  if containsLink raw.toList then none else parse_and_format_message raw

/-! ## The scheduler, functional view of one handler invocation

`new_message_handler` reads `time.time()` once into `now`, then either
dispatches immediately (updating `last_forward_time` to that `now`, setting
`is_forwarding`, and spawning a `process_queue` task) or appends to
`message_queue`.  This function is the handler's effect when it runs without
interleaving; the interleaved behaviour is the `Step` relation below. -/

/-- The two configured delays (`RATE_LIMIT`, `QUEUE_DELAY` in seconds). -/
structure Cfg where
  rateLimit : Nat
  queueDelay : Nat
deriving DecidableEq, Repr

/-- The module-level forwarding state of the source: `message_queue`,
`is_forwarding`, `last_forward_time`. -/
structure FwdState where
  queue : List String
  is_forwarding : Bool
  last_forward_time : Nat
deriving DecidableEq, Repr

/-- What one handler invocation did. -/
inductive HandlerEffect where
  | dispatched (body : String)
  | queued (body : String)
  | rejected
deriving DecidableEq, Repr

/-- One atomic run of `new_message_handler` on `raw` at time `now`. -/
def new_message_handler (cfg : Cfg) (st : FwdState) (now : Nat) (raw : String) :
    FwdState × HandlerEffect :=
  match handlerDecision raw with
  | none => (st, .rejected)
  | some body =>
    if st.is_forwarding = false ∨ now - st.last_forward_time > cfg.rateLimit then
      ({ st with last_forward_time := now, is_forwarding := true }, .dispatched body)
    else
      ({ st with queue := st.queue ++ [body] }, .queued body)

/-! ## `forward_to_targets` -/

/-- One per-target send attempt of `forward_to_targets`: the target, whether
the send raised, and the `asyncio.sleep` applied right after (1 second after
a success, 2 after a failure). -/
structure SendAttempt where
  target : Nat
  ok : Bool
  delayAfter : Nat
deriving DecidableEq, Repr

/-- The source's `forward_to_targets`: iterate the configured target list in order; each
send is attempted inside its own `try`, so a failure only selects the longer
sleep and the loop continues with the next target. `sendOk` is the oracle for
whether `client.send_message` succeeds at a target. -/
def forward_to_targets (sendOk : Nat → Bool) : List Nat → List SendAttempt
  | [] => []
  | ch :: rest =>
    { target := ch, ok := sendOk ch,
      delayAfter := if sendOk ch then 1 else 2 } :: forward_to_targets sendOk rest

/-! ## Small-step interleaving semantics of the scheduler

The source runs on one asyncio loop: each accepted message's handler and
each `process_queue` task run atomically between `await` points.  The atomic
blocks of the source are:

* handler, accepted payload: read `now`, test
  `(not is_forwarding) or (now - last_forward_time > RATE_LIMIT)`, and either
  enter `forward_to_targets` (first `await` is the send) or append to
  `message_queue` and return;
* handler, after `await forward_to_targets` returns: set
  `last_forward_time = now` (the `now` read before the await!), set
  `is_forwarding = True`, `create_task(process_queue())`;
* `process_queue`, at the `while` test: if the queue is empty, clear
  `is_forwarding` and return, else enter `asyncio.sleep(QUEUE_DELAY)`;
* `process_queue`, after the sleep: `popleft` (an `IndexError` kills the task
  if another drain task emptied the queue meanwhile) and enter
  `forward_to_targets`;
* `process_queue`, after its `forward_to_targets` returns: back to the
  `while` test.

Payloads are identified by numbers, dispatch is abstracted to a start/end
interval (its per-target structure is `forward_to_targets` above). -/

/-- Program counter of one live task. -/
inductive TaskPc where
  /-- accepted handler, body not yet run -/
  | hReady (p : Nat)
  /-- handler inside `await forward_to_targets`; `now` was read at entry -/
  | hSending (p : Nat) (now : Nat)
  /-- a `process_queue` task at its `while` test -/
  | dLoop
  /-- a `process_queue` task inside `asyncio.sleep(QUEUE_DELAY)` -/
  | dSleeping (wake : Nat)
  /-- a `process_queue` task inside `await forward_to_targets` -/
  | dSending (p : Nat)
  /-- task finished -/
  | tDone
  /-- task died on `popleft` from an empty deque -/
  | tCrashed
deriving DecidableEq, Repr

/-- Observable events, each stamped with the time it happened. -/
inductive Ev where
  | arrival (p : Nat) (t : Nat)
  | immediateStart (p : Nat) (t : Nat)
  | immediateEnd (p : Nat) (t : Nat)
  | enqueued (p : Nat) (t : Nat)
  /-- drain task `i` popped `p` and began dispatching it -/
  | queuedStart (i : Nat) (p : Nat) (t : Nat)
  | queuedEnd (i : Nat) (p : Nat) (t : Nat)
deriving DecidableEq, Repr

/-- Global scheduler state: clock, the module-level variables, the live
tasks (indexed by position; tasks are never removed, only marked done), and
the event log. -/
structure Sched where
  time : Nat
  queue : List Nat
  is_forwarding : Bool
  last_forward_time : Nat
  tasks : List TaskPc
  events : List Ev
deriving DecidableEq, Repr

/-- The state at process start: empty queue, `is_forwarding = False`,
`last_forward_time = 0.0`. -/
def init : Sched :=
  { time := 0, queue := [], is_forwarding := false, last_forward_time := 0,
    tasks := [], events := [] }

/-- One step of the interleaved execution. -/
inductive Step (cfg : Cfg) : Sched → Sched → Prop where
  /-- the clock advances -/
  | tick (s : Sched) (d : Nat) :
      Step cfg s { s with time := s.time + d }
  /-- an accepted message arrives and its handler task is created -/
  | arrive (s : Sched) (p : Nat) :
      Step cfg s { s with tasks := s.tasks ++ [.hReady p],
                          events := s.events ++ [.arrival p s.time] }
  /-- handler runs its atomic head and takes the immediate-dispatch branch -/
  | hDispatch (s : Sched) (i p : Nat)
      (hi : s.tasks.get? i = some (.hReady p))
      (hcond : s.is_forwarding = false ∨ s.time - s.last_forward_time > cfg.rateLimit) :
      Step cfg s { s with tasks := s.tasks.set i (.hSending p s.time),
                          events := s.events ++ [.immediateStart p s.time] }
  /-- handler runs its atomic head and takes the enqueue branch -/
  | hEnqueue (s : Sched) (i p : Nat)
      (hi : s.tasks.get? i = some (.hReady p))
      (hcond : s.is_forwarding = true ∧ s.time - s.last_forward_time ≤ cfg.rateLimit) :
      Step cfg s { s with tasks := s.tasks.set i .tDone,
                          queue := s.queue ++ [p],
                          events := s.events ++ [.enqueued p s.time] }
  /-- handler's `forward_to_targets` returns: write `last_forward_time = now`
  (captured before the await), set `is_forwarding`, spawn a drain task -/
  | hFinish (s : Sched) (i p now : Nat)
      (hi : s.tasks.get? i = some (.hSending p now)) :
      Step cfg s { s with tasks := (s.tasks.set i .tDone) ++ [.dLoop],
                          is_forwarding := true,
                          last_forward_time := now,
                          events := s.events ++ [.immediateEnd p s.time] }
  /-- drain task finds the queue empty: clear `is_forwarding` and return -/
  | dEmpty (s : Sched) (i : Nat)
      (hi : s.tasks.get? i = some .dLoop) (hq : s.queue = []) :
      Step cfg s { s with tasks := s.tasks.set i .tDone, is_forwarding := false }
  /-- drain task finds the queue non-empty and enters the delay sleep -/
  | dSleep (s : Sched) (i : Nat)
      (hi : s.tasks.get? i = some .dLoop) (hq : s.queue ≠ []) :
      Step cfg s { s with tasks := s.tasks.set i (.dSleeping (s.time + cfg.queueDelay)) }
  /-- drain task wakes and pops the head of the queue -/
  | dWakePop (s : Sched) (i wake p : Nat) (rest : List Nat)
      (hi : s.tasks.get? i = some (.dSleeping wake))
      (hw : wake ≤ s.time) (hq : s.queue = p :: rest) :
      Step cfg s { s with tasks := s.tasks.set i (.dSending p),
                          queue := rest,
                          events := s.events ++ [.queuedStart i p s.time] }
  /-- drain task wakes on an emptied queue: `popleft` raises and the task dies -/
  | dWakeCrash (s : Sched) (i wake : Nat)
      (hi : s.tasks.get? i = some (.dSleeping wake))
      (hw : wake ≤ s.time) (hq : s.queue = []) :
      Step cfg s { s with tasks := s.tasks.set i .tCrashed }
  /-- drain task's `forward_to_targets` returns: back to the while test -/
  | dFinish (s : Sched) (i p : Nat)
      (hi : s.tasks.get? i = some (.dSending p)) :
      Step cfg s { s with tasks := s.tasks.set i .dLoop,
                          events := s.events ++ [.queuedEnd i p s.time] }

/-- Reachability under the interleaving semantics. -/
def Reaches (cfg : Cfg) : Sched → Sched → Prop :=
  Relation.ReflTransGen (Step cfg)

/-- The default configuration of the source: `RATE_LIMIT = 60`,
`QUEUE_DELAY = 120`. -/
def cfg60 : Cfg := { rateLimit := 60, queueDelay := 120 }

/-! ### Executable schedules

Concrete interleavings are built by running a list of labels through an
executable mirror of `Step`; `runActs_reaches` transports the result into
`Reaches`. -/

/-- A label naming one `Step` constructor and its task index / argument. -/
inductive Act where
  | tick (d : Nat)
  | arrive (p : Nat)
  | hDispatch (i : Nat)
  | hEnqueue (i : Nat)
  | hFinish (i : Nat)
  | dEmpty (i : Nat)
  | dSleep (i : Nat)
  | dWakePop (i : Nat)
  | dWakeCrash (i : Nat)
  | dFinish (i : Nat)
deriving DecidableEq, Repr

/-- Executable mirror of `Step`: apply one labelled step if its guards hold. -/
def stepExec (cfg : Cfg) (s : Sched) : Act → Option Sched
  | .tick d => some { s with time := s.time + d }
  | .arrive p =>
      some { s with tasks := s.tasks ++ [.hReady p],
                    events := s.events ++ [.arrival p s.time] }
  | .hDispatch i =>
      match s.tasks.get? i with
      | some (.hReady p) =>
        if s.is_forwarding = false ∨ s.time - s.last_forward_time > cfg.rateLimit then
          some { s with tasks := s.tasks.set i (.hSending p s.time),
                        events := s.events ++ [.immediateStart p s.time] }
        else none
      | _ => none
  | .hEnqueue i =>
      match s.tasks.get? i with
      | some (.hReady p) =>
        if s.is_forwarding = true ∧ s.time - s.last_forward_time ≤ cfg.rateLimit then
          some { s with tasks := s.tasks.set i .tDone,
                        queue := s.queue ++ [p],
                        events := s.events ++ [.enqueued p s.time] }
        else none
      | _ => none
  | .hFinish i =>
      match s.tasks.get? i with
      | some (.hSending p now) =>
        some { s with tasks := (s.tasks.set i .tDone) ++ [.dLoop],
                      is_forwarding := true,
                      last_forward_time := now,
                      events := s.events ++ [.immediateEnd p s.time] }
      | _ => none
  | .dEmpty i =>
      match s.tasks.get? i with
      | some .dLoop =>
        if s.queue = [] then
          some { s with tasks := s.tasks.set i .tDone, is_forwarding := false }
        else none
      | _ => none
  | .dSleep i =>
      match s.tasks.get? i with
      | some .dLoop =>
        if s.queue = [] then none
        else some { s with tasks := s.tasks.set i (.dSleeping (s.time + cfg.queueDelay)) }
      | _ => none
  | .dWakePop i =>
      match s.tasks.get? i with
      | some (.dSleeping wake) =>
        if wake ≤ s.time then
          match s.queue with
          | p :: rest =>
            some { s with tasks := s.tasks.set i (.dSending p),
                          queue := rest,
                          events := s.events ++ [.queuedStart i p s.time] }
          | [] => none
        else none
      | _ => none
  | .dWakeCrash i =>
      match s.tasks.get? i with
      | some (.dSleeping wake) =>
        if wake ≤ s.time ∧ s.queue = [] then
          some { s with tasks := s.tasks.set i .tCrashed }
        else none
      | _ => none
  | .dFinish i =>
      match s.tasks.get? i with
      | some (.dSending p) =>
        some { s with tasks := s.tasks.set i .dLoop,
                      events := s.events ++ [.queuedEnd i p s.time] }
      | _ => none

/-- Run a list of labelled steps. -/
def runActs (cfg : Cfg) (s : Sched) : List Act → Option Sched
  | [] => some s
  | a :: rest =>
    match stepExec cfg s a with
    | some t => runActs cfg t rest
    | none => none

/-! ### Event-log projections -/

/-- Payloads of `enqueued` events, in log order. -/
def enqList (l : List Ev) : List Nat :=
  l.filterMap fun e => match e with | .enqueued p _ => some p | _ => none

/-- Payloads of `queuedStart` events, in log order. -/
def qsList (l : List Ev) : List Nat :=
  l.filterMap fun e => match e with | .queuedStart _ p _ => some p | _ => none

/-- Times of drain task `i`'s `queuedStart` events, in log order. -/
def qsTimes (i : Nat) (l : List Ev) : List Nat :=
  l.filterMap fun e =>
    match e with
    | .queuedStart j _ t => if j = i then some t else none
    | _ => none

/-- Times of `immediateStart` events, in log order. -/
def immStartTimes (l : List Ev) : List Nat :=
  l.filterMap fun e => match e with | .immediateStart _ t => some t | _ => none

/-- Times of `queuedEnd` events, in log order. -/
def queuedEndTimes (l : List Ev) : List Nat :=
  l.filterMap fun e => match e with | .queuedEnd _ _ t => some t | _ => none

/-- Times of `arrival` events, in log order. -/
def arrivalTimes (l : List Ev) : List Nat :=
  l.filterMap fun e => match e with | .arrival _ t => some t | _ => none

/-- Number of `enqueued` events. -/
def countEnqueued (l : List Ev) : Nat := (enqList l).length

/-- Number of `immediateStart` events. -/
def countImmediate (l : List Ev) : Nat := (immStartTimes l).length

/-- Is this task a live `process_queue` task (anywhere inside its loop)? -/
def isDrainPc : TaskPc → Bool
  | .dLoop => true
  | .dSleeping _ => true
  | .dSending _ => true
  | _ => false

/-- Is this task inside a `forward_to_targets` dispatch right now? -/
def isDispatchingPc : TaskPc → Bool
  | .hSending _ _ => true
  | .dSending _ => true
  | _ => false

/-- Number of live drain tasks. -/
def drainCount (l : List TaskPc) : Nat := l.countP fun pc => isDrainPc pc

/-- Number of dispatches currently in flight. -/
def dispatchCount (l : List TaskPc) : Nat := l.countP fun pc => isDispatchingPc pc

/-- The timestamp of an event. -/
def evTime : Ev → Nat
  | .arrival _ t => t
  | .immediateStart _ t => t
  | .immediateEnd _ t => t
  | .enqueued _ t => t
  | .queuedStart _ _ t => t
  | .queuedEnd _ _ t => t

/-! ### Invariants of the scheduler

`invariants_reachable` below establishes, for every reachable state:

* logged event times never exceed the clock;
* FIFO order: the payloads already popped by drain tasks, followed by the
  current queue, are exactly the enqueued payloads in arrival order;
* every sleeping drain task wakes at least `QUEUE_DELAY` after its own last
  queued dispatch start;
* each drain task's queued dispatch starts are at least `QUEUE_DELAY` apart. -/

def TimeBound (s : Sched) : Prop := ∀ e ∈ s.events, evTime e ≤ s.time

def FifoOrder (s : Sched) : Prop :=
  qsList s.events ++ s.queue = enqList s.events

def SleepGuard (cfg : Cfg) (s : Sched) : Prop :=
  ∀ i wake, s.tasks.get? i = some (.dSleeping wake) →
    ∀ t ∈ (qsTimes i s.events).getLast?, t + cfg.queueDelay ≤ wake

def SpacedStarts (cfg : Cfg) (s : Sched) : Prop :=
  ∀ i, List.Chain' (fun a b => a + cfg.queueDelay ≤ b) (qsTimes i s.events)

def Inv (cfg : Cfg) (s : Sched) : Prop :=
  TimeBound s ∧ FifoOrder s ∧ SleepGuard cfg s ∧ SpacedStarts cfg s

/-! ### Concrete interleavings

Each schedule below is validated by the executable semantics and transported
into `Reaches` via `runActs_reaches`; all states are over the default
configuration `RATE_LIMIT = 60`, `QUEUE_DELAY = 120`. -/

/-- Two accepted back-to-back messages; the second handler runs while the
first is still inside the awaited send (`is_forwarding` not yet set). -/
def raceActs : List Act := [.arrive 1, .arrive 2, .hDispatch 0, .hDispatch 1]

/-- The race schedule, continued until both dispatches complete. -/
def bothImmActs : List Act := raceActs ++ [.hFinish 0, .hFinish 1]

/-- A first drain task left sleeping over a non-empty queue while a later
accepted message (past the rate window) dispatches and spawns a second one. -/
def twoDrainActs : List Act :=
  [.arrive 1, .hDispatch 0, .hFinish 0, .arrive 2, .hEnqueue 2, .dSleep 1,
   .tick 61, .arrive 3, .hDispatch 3, .hFinish 3, .dSleep 4]

/-- A queued dispatch ends at t = 120 and an accepted arrival at the same
instant dispatches immediately (120 − 0 > 60). -/
def adjacentActs : List Act :=
  [.arrive 1, .hDispatch 0, .hFinish 0, .arrive 2, .hEnqueue 2, .dSleep 1,
   .tick 120, .dWakePop 1, .dFinish 1, .arrive 3, .hDispatch 3]

/-- The favourable interleaving of the back-to-back scenario: the first
handler completes before the second arrives and before the drain task's
`while` test, so the second message is enqueued and drained 120 s later. -/
def goodActs : List Act :=
  [.arrive 1, .hDispatch 0, .hFinish 0, .arrive 2, .hEnqueue 2, .dSleep 1,
   .tick 120, .dWakePop 1, .dFinish 1, .dEmpty 1]

def sRace : Sched :=
  { time := 0, queue := [], is_forwarding := false, last_forward_time := 0,
    tasks := [.hSending 1 0, .hSending 2 0],
    events := [.arrival 1 0, .arrival 2 0, .immediateStart 1 0, .immediateStart 2 0] }

def sBothImm : Sched :=
  { time := 0, queue := [], is_forwarding := true, last_forward_time := 0,
    tasks := [.tDone, .tDone, .dLoop, .dLoop],
    events := [.arrival 1 0, .arrival 2 0, .immediateStart 1 0, .immediateStart 2 0,
               .immediateEnd 1 0, .immediateEnd 2 0] }

def sTwoDrains : Sched :=
  { time := 61, queue := [2], is_forwarding := true, last_forward_time := 61,
    tasks := [.tDone, .dSleeping 120, .tDone, .tDone, .dSleeping 181],
    events := [.arrival 1 0, .immediateStart 1 0, .immediateEnd 1 0,
               .arrival 2 0, .enqueued 2 0,
               .arrival 3 61, .immediateStart 3 61, .immediateEnd 3 61] }

def sAdjacent : Sched :=
  { time := 120, queue := [], is_forwarding := true, last_forward_time := 0,
    tasks := [.tDone, .dLoop, .tDone, .hSending 3 120],
    events := [.arrival 1 0, .immediateStart 1 0, .immediateEnd 1 0,
               .arrival 2 0, .enqueued 2 0,
               .queuedStart 1 2 120, .queuedEnd 1 2 120,
               .arrival 3 120, .immediateStart 3 120] }

def sGood : Sched :=
  { time := 120, queue := [], is_forwarding := false, last_forward_time := 0,
    tasks := [.tDone, .tDone, .tDone],
    events := [.arrival 1 0, .immediateStart 1 0, .immediateEnd 1 0,
               .arrival 2 0, .enqueued 2 0,
               .queuedStart 1 2 120, .queuedEnd 1 2 120] }

/-! ### What characters can end up in a capture

`mrun_stOk` below: every character a pattern can put into the capture of
group `n` was consumed by an item lying between `gopen n` and `gclose n`,
so if all those items' character classes entail a predicate `P n`, the
capture satisfies `P n` throughout.  Instantiated to the source patterns
this bounds the `token` and `code` captures. -/

/-- All finished and open captures satisfy their group's predicate. -/
def CapsOk (P : Nat → Char → Bool) (caps : List (Nat × List Char)) : Prop :=
  ∀ g ∈ caps, g.2.all (P g.1) = true

def StOk (P : Nat → Char → Bool) (st : MState) : Prop :=
  CapsOk P st.caps ∧ CapsOk P st.openG

/-- The items of the pattern, read with the stack of currently open groups,
only consume characters acceptable to every open group. -/
def PatOk (P : Nat → Char → Bool) : List RItem → List Nat → Prop
  | [], _ => True
  | .lit c :: rs, stk => (∀ n ∈ stk, P n c = true) ∧ PatOk P rs stk
  | .one p :: rs, stk =>
      (∀ n ∈ stk, ∀ c, p c = true → P n c = true) ∧ PatOk P rs stk
  | .star p :: rs, stk =>
      (∀ n ∈ stk, ∀ c, p c = true → P n c = true) ∧ PatOk P rs stk
  | .plus p :: rs, stk =>
      (∀ n ∈ stk, ∀ c, p c = true → P n c = true) ∧ PatOk P rs stk
  | .opt p :: rs, stk =>
      (∀ n ∈ stk, ∀ c, p c = true → P n c = true) ∧ PatOk P rs stk
  | .gopen n :: rs, stk => PatOk P rs (n :: stk)
  | .gclose _ :: rs, stk =>
      match stk with
      | [] => PatOk P rs []
      | _ :: stk2 => PatOk P rs stk2

/-- The predicate family respected by `amountPat`: group 1 builds from
digits and the dot, group 2 from word characters. -/
def amountPred : Nat → Char → Bool :=
  fun n c => if n = 2 then isWordB c else (isDigitB c || c = '.')

/-- The predicate family respected by `codePat`: the single group builds
from `[A-Z0-9]` characters. -/
def codePred : Nat → Char → Bool := fun _ c => isUpperDigitB c

/-! ### Concrete inputs used by the claim theorems

Strings whose exact code points matter are built explicitly, because the
source file stores its emoji mojibake (see the header note). -/

/-- The four code points the source stores where the gift emoji is displayed
(start of line 3 of the expected message and of the code line of the body). -/
def giftMoji : String :=
  String.mk [Char.ofNat 0xF8FF, Char.ofNat 0xFC, Char.ofNat 0xE9, Char.ofNat 0xC5]

/-- The two code points U+00AC U+00B1 the `m1` regex literal requires. -/
def acPm : String := String.mk [Char.ofNat 0xAC, Char.ofNat 0xB1]

/-- A fully valid three-line message in the source's stored encoding. -/
def msgOk : String :=
  acPm ++ " 2.00 BTTC\nClaimed: 120 / 500\n" ++ giftMoji ++ " ABC123"

/-- A four-line message whose first three lines are valid and whose fourth
is junk. -/
def msgFour : String :=
  acPm ++ " 1.0 TOK\nClaimed: 1 / 2\n" ++ giftMoji ++ " ABC\nextra junk"

/-- The fields `msgOk` parses to. -/
def fOk : ParsedFields :=
  { amount := "2.00".toList, token := "BTTC".toList, claimed := "120".toList,
    total := "500".toList, code := "ABC123".toList }

/-- The spec's two-event scenario, first event: a real amount/remaining
message, with the genuine emoji U+1F4B0, U+1F9E7 and sign U+00B1. -/
def pairFirstEvt : String :=
  String.mk ([Char.ofNat 0x1F4B0, ' ', Char.ofNat 0xB1] ++ " 2.00 BTTC\n".toList
    ++ [Char.ofNat 0x1F9E7] ++ " Remaining: 9488".toList)

/-- The spec's two-event scenario, second event: a claim event whose text
carries the claim URL. -/
def pairSecondEvt : String := "Claim: https://example.com/claim"

/-- A canonical record whose token field holds markup. -/
def tokenInjRecord : ParsedFields :=
  { amount := "2.00".toList, token := "<b>".toList, claimed := "1".toList,
    total := "2".toList, code := "AB".toList }

/-- A send oracle that fails on target 1 and succeeds elsewhere. -/
def failOnOne : Nat → Bool := fun t => decide (t ≠ 1)

/-- A state with one handler inside its awaited immediate dispatch. -/
def sW0 : Sched :=
  { time := 4, queue := [], is_forwarding := false, last_forward_time := 0,
    tasks := [.hSending 9 3], events := [] }

/-- State `sW0` after the handler's dispatch completes. -/
def sW1 : Sched :=
  { time := 4, queue := [], is_forwarding := true, last_forward_time := 3,
    tasks := [.tDone, .dLoop], events := [.immediateEnd 9 4] }

theorem stepExec_step {cfg : Cfg} {s t : Sched} {a : Act}
    (h : stepExec cfg s a = some t) : Step cfg s t := by
  cases a <;> simp only [stepExec] at h
  case tick d => exact (Option.some_inj.mp h) ▸ Step.tick s d
  case arrive p => exact (Option.some_inj.mp h) ▸ Step.arrive s p
  case hDispatch i =>
    match hi : s.tasks.get? i with
    | some (.hReady p) =>
      rw [hi] at h
      simp only at h
      split at h
      · exact (Option.some_inj.mp h) ▸ Step.hDispatch s i p hi (by assumption)
      · exact absurd h (by simp)
    | none | some (.hSending _ _) | some .dLoop | some (.dSleeping _)
    | some (.dSending _) | some .tDone | some .tCrashed =>
      rw [hi] at h; exact absurd h (by simp)
  case hEnqueue i =>
    match hi : s.tasks.get? i with
    | some (.hReady p) =>
      rw [hi] at h
      simp only at h
      split at h
      · exact (Option.some_inj.mp h) ▸ Step.hEnqueue s i p hi (by assumption)
      · exact absurd h (by simp)
    | none | some (.hSending _ _) | some .dLoop | some (.dSleeping _)
    | some (.dSending _) | some .tDone | some .tCrashed =>
      rw [hi] at h; exact absurd h (by simp)
  case hFinish i =>
    match hi : s.tasks.get? i with
    | some (.hSending p now) =>
      rw [hi] at h
      exact (Option.some_inj.mp h) ▸ Step.hFinish s i p now hi
    | none | some (.hReady _) | some .dLoop | some (.dSleeping _)
    | some (.dSending _) | some .tDone | some .tCrashed =>
      rw [hi] at h; exact absurd h (by simp)
  case dEmpty i =>
    match hi : s.tasks.get? i with
    | some .dLoop =>
      rw [hi] at h
      simp only at h
      split at h
      · exact (Option.some_inj.mp h) ▸ Step.dEmpty s i hi (by assumption)
      · exact absurd h (by simp)
    | none | some (.hReady _) | some (.hSending _ _) | some (.dSleeping _)
    | some (.dSending _) | some .tDone | some .tCrashed =>
      rw [hi] at h; exact absurd h (by simp)
  case dSleep i =>
    match hi : s.tasks.get? i with
    | some .dLoop =>
      rw [hi] at h
      simp only at h
      split at h
      · exact absurd h (by simp)
      · exact (Option.some_inj.mp h) ▸ Step.dSleep s i hi (by assumption)
    | none | some (.hReady _) | some (.hSending _ _) | some (.dSleeping _)
    | some (.dSending _) | some .tDone | some .tCrashed =>
      rw [hi] at h; exact absurd h (by simp)
  case dWakePop i =>
    match hi : s.tasks.get? i with
    | some (.dSleeping wake) =>
      rw [hi] at h
      simp only at h
      split at h
      · match hq : s.queue with
        | p :: rest =>
          rw [hq] at h
          exact (Option.some_inj.mp h) ▸ Step.dWakePop s i wake p rest hi (by assumption) hq
        | [] => rw [hq] at h; exact absurd h (by simp)
      · exact absurd h (by simp)
    | none | some (.hReady _) | some (.hSending _ _) | some .dLoop
    | some (.dSending _) | some .tDone | some .tCrashed =>
      rw [hi] at h; exact absurd h (by simp)
  case dWakeCrash i =>
    match hi : s.tasks.get? i with
    | some (.dSleeping wake) =>
      rw [hi] at h
      simp only at h
      split at h
      · next hc =>
          exact (Option.some_inj.mp h) ▸ Step.dWakeCrash s i wake hi hc.1 hc.2
      · exact absurd h (by simp)
    | none | some (.hReady _) | some (.hSending _ _) | some .dLoop
    | some (.dSending _) | some .tDone | some .tCrashed =>
      rw [hi] at h; exact absurd h (by simp)
  case dFinish i =>
    match hi : s.tasks.get? i with
    | some (.dSending p) =>
      rw [hi] at h
      exact (Option.some_inj.mp h) ▸ Step.dFinish s i p hi
    | none | some (.hReady _) | some (.hSending _ _) | some .dLoop
    | some (.dSleeping _) | some .tDone | some .tCrashed =>
      rw [hi] at h; exact absurd h (by simp)

theorem runActs_reaches {cfg : Cfg} {s t : Sched} :
    ∀ {acts : List Act}, runActs cfg s acts = some t → Reaches cfg s t := by
  intro acts
  induction acts generalizing s with
  | nil => intro h; exact (Option.some_inj.mp h) ▸ Relation.ReflTransGen.refl
  | cons a rest ih =>
    intro h
    simp only [runActs] at h
    match hs : stepExec cfg s a with
    | some u =>
      rw [hs] at h
      exact Relation.ReflTransGen.head (stepExec_step hs) (ih h)
    | none => rw [hs] at h; exact absurd h (by simp)

theorem qsTimes_append (i : Nat) (l₁ l₂ : List Ev) :
    qsTimes i (l₁ ++ l₂) = qsTimes i l₁ ++ qsTimes i l₂ :=
  List.filterMap_append ..

theorem qsList_append (l₁ l₂ : List Ev) :
    qsList (l₁ ++ l₂) = qsList l₁ ++ qsList l₂ :=
  List.filterMap_append ..

theorem enqList_append (l₁ l₂ : List Ev) :
    enqList (l₁ ++ l₂) = enqList l₁ ++ enqList l₂ :=
  List.filterMap_append ..

theorem mem_qsTimes_le {s : Sched} (hT : TimeBound s) {i t : Nat}
    (ht : t ∈ qsTimes i s.events) : t ≤ s.time := by
  rcases List.mem_filterMap.mp ht with ⟨e, he, hfe⟩
  have hle := hT e he
  cases e with
  | queuedStart j p tq =>
    simp only [evTime] at hle
    by_cases hj : j = i
    · simp only [hj, if_pos rfl] at hfe
      exact (Option.some_inj.mp hfe) ▸ hle
    · simp [hj] at hfe
  | arrival p tq => simp at hfe
  | immediateStart p tq => simp at hfe
  | immediateEnd p tq => simp at hfe
  | enqueued p tq => simp at hfe
  | queuedEnd j p tq => simp at hfe

theorem inv_init (cfg : Cfg) : Inv cfg init := by
  refine ⟨?_, ?_, ?_, ?_⟩
  · intro e he; simp [init] at he
  · rfl
  · intro i wake hi; simp [init] at hi
  · intro i; simp [init, qsTimes, List.filterMap]

theorem get?_append_one {α} {l : List α} {x y : α} {i : Nat}
    (h : (l ++ [x]).get? i = some y) : l.get? i = some y ∨ y = x := by
  by_cases hlt : i < l.length
  · left; rwa [List.get?_append hlt] at h
  · right
    rw [List.get?_append_right (Nat.le_of_not_lt hlt)] at h
    cases hk : i - l.length with
    | zero => rw [hk] at h; exact (Option.some_inj.mp h).symm
    | succ n => rw [hk] at h; simp at h

theorem get?_set_cases {α} {l : List α} {a y : α} {i j : Nat}
    (h : (l.set i a).get? j = some y) : l.get? j = some y ∨ y = a := by
  by_cases hij : i = j
  · subst hij
    rw [List.get?_set_eq] at h
    cases hl : l.get? i with
    | none => rw [hl] at h; simp at h
    | some b => rw [hl] at h; simp at h; exact Or.inr h.symm
  · left; rwa [List.get?_set_ne a l hij] at h

theorem get?_set_ne_preserve {α} {l : List α} {a y : α} {i j : Nat}
    (hij : i ≠ j) (h : (l.set i a).get? j = some y) : l.get? j = some y := by
  rwa [List.get?_set_ne a l hij] at h

/-! Values of the projections on singleton logs. -/

theorem qsList_arr (p t : Nat) : qsList [Ev.arrival p t] = [] := rfl
theorem qsList_is (p t : Nat) : qsList [Ev.immediateStart p t] = [] := rfl
theorem qsList_ie (p t : Nat) : qsList [Ev.immediateEnd p t] = [] := rfl
theorem qsList_enq (p t : Nat) : qsList [Ev.enqueued p t] = [] := rfl
theorem qsList_qs (i p t : Nat) : qsList [Ev.queuedStart i p t] = [p] := rfl
theorem qsList_qe (i p t : Nat) : qsList [Ev.queuedEnd i p t] = [] := rfl

theorem enqList_arr (p t : Nat) : enqList [Ev.arrival p t] = [] := rfl
theorem enqList_is (p t : Nat) : enqList [Ev.immediateStart p t] = [] := rfl
theorem enqList_ie (p t : Nat) : enqList [Ev.immediateEnd p t] = [] := rfl
theorem enqList_enq (p t : Nat) : enqList [Ev.enqueued p t] = [p] := rfl
theorem enqList_qs (i p t : Nat) : enqList [Ev.queuedStart i p t] = [] := rfl
theorem enqList_qe (i p t : Nat) : enqList [Ev.queuedEnd i p t] = [] := rfl

theorem qsTimes_arr (i p t : Nat) : qsTimes i [Ev.arrival p t] = [] := rfl
theorem qsTimes_is (i p t : Nat) : qsTimes i [Ev.immediateStart p t] = [] := rfl
theorem qsTimes_ie (i p t : Nat) : qsTimes i [Ev.immediateEnd p t] = [] := rfl
theorem qsTimes_enq (i p t : Nat) : qsTimes i [Ev.enqueued p t] = [] := rfl
theorem qsTimes_qe (i j p t : Nat) : qsTimes i [Ev.queuedEnd j p t] = [] := rfl

theorem qsTimes_qs_self (i p t : Nat) : qsTimes i [Ev.queuedStart i p t] = [t] := by
  simp [qsTimes, List.filterMap]

theorem qsTimes_qs_other {i j : Nat} (hij : j ≠ i) (p t : Nat) :
    qsTimes i [Ev.queuedStart j p t] = [] := by
  simp [qsTimes, List.filterMap, hij]

/-- One step preserves the four invariants. -/
theorem inv_step {cfg : Cfg} {s s' : Sched} (hInv : Inv cfg s) (hs : Step cfg s s') :
    Inv cfg s' := by
  obtain ⟨hT, hF, hG, hSp⟩ := hInv
  cases hs with
  | tick d =>
    refine ⟨?_, hF, hG, hSp⟩
    intro e he
    exact le_trans (hT e he) (Nat.le_add_right ..)
  | arrive p =>
    refine ⟨?_, ?_, ?_, ?_⟩
    · intro e he
      rcases List.mem_append.mp he with h | h
      · exact hT e h
      · simp at h; subst h; simp [evTime]
    · show qsList (s.events ++ [Ev.arrival p s.time]) ++ s.queue
          = enqList (s.events ++ [Ev.arrival p s.time])
      rw [qsList_append, enqList_append, qsList_arr, enqList_arr,
        List.append_nil, List.append_nil]
      exact hF
    · intro i wake hi t ht
      rw [qsTimes_append, qsTimes_arr, List.append_nil] at ht
      rcases get?_append_one hi with h | h
      · exact hG i wake h t ht
      · exact absurd h (by simp)
    · intro i
      rw [qsTimes_append, qsTimes_arr, List.append_nil]
      exact hSp i
  | hDispatch i p hi hcond =>
    refine ⟨?_, ?_, ?_, ?_⟩
    · intro e he
      rcases List.mem_append.mp he with h | h
      · exact hT e h
      · simp at h; subst h; simp [evTime]
    · show qsList (s.events ++ [Ev.immediateStart p s.time]) ++ s.queue
          = enqList (s.events ++ [Ev.immediateStart p s.time])
      rw [qsList_append, enqList_append, qsList_is, enqList_is,
        List.append_nil, List.append_nil]
      exact hF
    · intro j wake hj t ht
      rw [qsTimes_append, qsTimes_is, List.append_nil] at ht
      rcases get?_set_cases hj with h | h
      · exact hG j wake h t ht
      · exact absurd h (by simp)
    · intro j
      rw [qsTimes_append, qsTimes_is, List.append_nil]
      exact hSp j
  | hEnqueue i p hi hcond =>
    refine ⟨?_, ?_, ?_, ?_⟩
    · intro e he
      rcases List.mem_append.mp he with h | h
      · exact hT e h
      · simp at h; subst h; simp [evTime]
    · show qsList (s.events ++ [Ev.enqueued p s.time]) ++ (s.queue ++ [p])
          = enqList (s.events ++ [Ev.enqueued p s.time])
      rw [qsList_append, enqList_append, qsList_enq, enqList_enq,
        List.append_nil, ← List.append_assoc, hF]
    · intro j wake hj t ht
      rw [qsTimes_append, qsTimes_enq, List.append_nil] at ht
      rcases get?_set_cases hj with h | h
      · exact hG j wake h t ht
      · exact absurd h (by simp)
    · intro j
      rw [qsTimes_append, qsTimes_enq, List.append_nil]
      exact hSp j
  | hFinish i p now hi =>
    refine ⟨?_, ?_, ?_, ?_⟩
    · intro e he
      rcases List.mem_append.mp he with h | h
      · exact hT e h
      · simp at h; subst h; simp [evTime]
    · show qsList (s.events ++ [Ev.immediateEnd p s.time]) ++ s.queue
          = enqList (s.events ++ [Ev.immediateEnd p s.time])
      rw [qsList_append, enqList_append, qsList_ie, enqList_ie,
        List.append_nil, List.append_nil]
      exact hF
    · intro j wake hj t ht
      rw [qsTimes_append, qsTimes_ie, List.append_nil] at ht
      rcases get?_append_one hj with h | h
      · rcases get?_set_cases h with h2 | h2
        · exact hG j wake h2 t ht
        · exact absurd h2 (by simp)
      · exact absurd h (by simp)
    · intro j
      rw [qsTimes_append, qsTimes_ie, List.append_nil]
      exact hSp j
  | dEmpty i hi hq =>
    refine ⟨hT, hF, ?_, hSp⟩
    intro j wake hj
    rcases get?_set_cases hj with h | h
    · exact hG j wake h
    · exact absurd h (by simp)
  | dSleep i hi hq =>
    refine ⟨hT, hF, ?_, hSp⟩
    intro j wake hj t ht
    by_cases hij : i = j
    · subst hij
      rw [List.get?_set_eq, hi] at hj
      simp only [Option.map_some] at hj
      have hw : TaskPc.dSleeping (s.time + cfg.queueDelay) = TaskPc.dSleeping wake :=
        Option.some_inj.mp hj
      have hw2 : s.time + cfg.queueDelay = wake := by
        cases hw; rfl
      have htmem : t ∈ qsTimes i s.events := by
        rcases List.mem_getLast?_eq_getLast ht with ⟨hne, rfl⟩
        exact List.getLast_mem hne
      exact hw2 ▸ Nat.add_le_add_right (mem_qsTimes_le hT htmem) cfg.queueDelay
    · exact hG j wake (get?_set_ne_preserve hij hj) t ht
  | dWakePop i wake p rest hi hw hq =>
    refine ⟨?_, ?_, ?_, ?_⟩
    · intro e he
      rcases List.mem_append.mp he with h | h
      · exact hT e h
      · simp at h; subst h; simp [evTime]
    · show qsList (s.events ++ [Ev.queuedStart i p s.time]) ++ rest
          = enqList (s.events ++ [Ev.queuedStart i p s.time])
      rw [qsList_append, enqList_append, qsList_qs, enqList_qs, List.append_nil,
        List.append_assoc]
      show qsList s.events ++ (p :: rest) = enqList s.events
      rw [← hq]
      exact hF
    · intro j wake2 hj t ht
      by_cases hij : i = j
      · subst hij
        rw [List.get?_set_eq, hi] at hj
        simp at hj
      · rw [qsTimes_append, qsTimes_qs_other hij, List.append_nil] at ht
        exact hG j wake2 (get?_set_ne_preserve hij hj) t ht
    · intro j
      by_cases hij : i = j
      · subst hij
        rw [qsTimes_append, qsTimes_qs_self]
        refine List.chain'_append.mpr ⟨hSp i, List.chain'_singleton _, ?_⟩
        intro x hx y hy
        simp only [List.head?_cons, Option.mem_def, Option.some.injEq] at hy
        subst hy
        exact le_trans (hG i wake hi x hx) hw
      · rw [qsTimes_append, qsTimes_qs_other hij, List.append_nil]
        exact hSp j
  | dWakeCrash i wake hi hw hq =>
    refine ⟨hT, hF, ?_, hSp⟩
    intro j wake2 hj
    rcases get?_set_cases hj with h | h
    · exact hG j wake2 h
    · exact absurd h (by simp)
  | dFinish i p hi =>
    refine ⟨?_, ?_, ?_, ?_⟩
    · intro e he
      rcases List.mem_append.mp he with h | h
      · exact hT e h
      · simp at h; subst h; simp [evTime]
    · show qsList (s.events ++ [Ev.queuedEnd i p s.time]) ++ s.queue
          = enqList (s.events ++ [Ev.queuedEnd i p s.time])
      rw [qsList_append, enqList_append, qsList_qe, enqList_qe,
        List.append_nil, List.append_nil]
      exact hF
    · intro j wake hj t ht
      rw [qsTimes_append, qsTimes_qe, List.append_nil] at ht
      rcases get?_set_cases hj with h | h
      · exact hG j wake h t ht
      · exact absurd h (by simp)
    · intro j
      rw [qsTimes_append, qsTimes_qe, List.append_nil]
      exact hSp j

/-- The four invariants hold at every reachable state. -/
theorem invariants_reachable {cfg : Cfg} {s : Sched}
    (h : Reaches cfg init s) : Inv cfg s := by
  induction h with
  | refl => exact inv_init cfg
  | tail _ hstep ih => exact inv_step ih hstep

/-- Variable `last_forward_time` changes only when a handler's immediate dispatch
completes (line 186 of the source is the only assignment). -/
theorem last_forward_written_by_handler {cfg : Cfg} {s s' : Sched}
    (hs : Step cfg s s') (hne : s'.last_forward_time ≠ s.last_forward_time) :
    ∃ p t, s'.events = s.events ++ [Ev.immediateEnd p t] := by
  cases hs with
  | hFinish i p now hi => exact ⟨p, s.time, rfl⟩
  | tick d => exact absurd rfl hne
  | arrive p => exact absurd rfl hne
  | hDispatch i p hi hcond => exact absurd rfl hne
  | hEnqueue i p hi hcond => exact absurd rfl hne
  | dEmpty i hi hq => exact absurd rfl hne
  | dSleep i hi hq => exact absurd rfl hne
  | dWakePop i wake p rest hi hw hq => exact absurd rfl hne
  | dWakeCrash i wake hi hw hq => exact absurd rfl hne
  | dFinish i p hi => exact absurd rfl hne

theorem countP_set_eq {α} (p : α → Bool) :
    ∀ (l : List α) (i : Nat) (a b : α), l.get? i = some a → p a = p b →
      (l.set i b).countP p = l.countP p
  | [], i, a, b, h, _ => by simp at h
  | x :: xs, 0, a, b, h, hp => by
    simp only [List.get?] at h
    have hx : x = a := Option.some_inj.mp h
    subst hx
    simp [List.set, List.countP_cons, hp]
  | x :: xs, i + 1, a, b, h, hp => by
    simp only [List.get?] at h
    simp [List.set, List.countP_cons, countP_set_eq p xs i a b h hp]

/-- Every completed immediate dispatch spawns one more live drain task,
unconditionally: the source has no guard on `create_task(process_queue())`. -/
theorem drain_spawned_per_dispatch {cfg : Cfg} {s s' : Sched} {p t : Nat}
    (hs : Step cfg s s') (hev : s'.events = s.events ++ [Ev.immediateEnd p t]) :
    drainCount s'.tasks = drainCount s.tasks + 1 := by
  cases hs with
  | hFinish i q now hi =>
    show drainCount ((s.tasks.set i .tDone) ++ [.dLoop]) = drainCount s.tasks + 1
    unfold drainCount
    rw [List.countP_append,
      countP_set_eq _ s.tasks i (.hSending q now) .tDone hi (by simp [isDrainPc])]
    simp [List.countP_cons, isDrainPc]
  | tick d => exact absurd hev (by simp)
  | arrive q => exact absurd (List.append_cancel_left hev) (by simp)
  | hDispatch i q hi hcond => exact absurd (List.append_cancel_left hev) (by simp)
  | hEnqueue i q hi hcond => exact absurd (List.append_cancel_left hev) (by simp)
  | dEmpty i hi hq => exact absurd hev (by simp)
  | dSleep i hi hq => exact absurd hev (by simp)
  | dWakePop i wake q rest hi hw hq =>
    exact absurd (List.append_cancel_left hev) (by simp)
  | dWakeCrash i wake hi hw hq => exact absurd hev (by simp)
  | dFinish i q hi => exact absurd (List.append_cancel_left hev) (by simp)

theorem reaches_sRace : Reaches cfg60 init sRace :=
  runActs_reaches (show runActs cfg60 init raceActs = some sRace from rfl)

theorem reaches_sBothImm : Reaches cfg60 init sBothImm :=
  runActs_reaches (show runActs cfg60 init bothImmActs = some sBothImm from rfl)

theorem reaches_sTwoDrains : Reaches cfg60 init sTwoDrains :=
  runActs_reaches (show runActs cfg60 init twoDrainActs = some sTwoDrains from rfl)

theorem reaches_sAdjacent : Reaches cfg60 init sAdjacent :=
  runActs_reaches (show runActs cfg60 init adjacentActs = some sAdjacent from rfl)

theorem reaches_sGood : Reaches cfg60 init sGood :=
  runActs_reaches (show runActs cfg60 init goodActs = some sGood from rfl)

theorem stOk_add {P : Nat → Char → Bool} {st : MState} {chunk : List Char}
    (hst : StOk P st)
    (hch : ∀ n ∈ st.openG.map Prod.fst, chunk.all (P n) = true) :
    StOk P (st.add chunk) := by
  refine ⟨hst.1, ?_⟩
  intro g hg
  simp only [MState.add, List.mem_map] at hg
  rcases hg with ⟨g0, hg0, rfl⟩
  simp only [List.all_append, Bool.and_eq_true]
  exact ⟨hst.2 g0 hg0, hch g0.1 (List.mem_map.mpr ⟨g0, hg0, rfl⟩)⟩

theorem add_fst (st : MState) (chunk : List Char) :
    (st.add chunk).openG.map Prod.fst = st.openG.map Prod.fst := by
  simp [MState.add]

theorem npSplits_all {p : Char → Bool} {cs : List Char}
    {pr : List Char × List Char} (h : pr ∈ npSplits p cs) :
    pr.1.all p = true := by
  simp only [npSplits, List.mem_map, List.mem_reverse, List.mem_range] at h
  rcases h with ⟨i, hi, heq⟩
  have h1 : cs.take i = pr.1 := congrArg Prod.fst heq
  rw [← h1]
  rw [List.all_eq_true]
  intro x hx
  have hsub : cs.take i ⊆ cs.takeWhile p := by
    intro y hy
    have hlen : i ≤ (cs.takeWhile p).length := Nat.lt_succ_iff.mp hi
    have h2 : cs.take i = (cs.takeWhile p).take i := by
      conv_lhs => rw [← List.takeWhile_append_dropWhile (p := p) (l := cs)]
      exact List.take_append_of_le_length hlen
    rw [h2] at hy
    exact List.take_subset i _ hy
  exact List.mem_takeWhile_imp (hsub hx)

theorem mrun_stOk {P : Nat → Char → Bool} :
    ∀ (pat : List RItem) (cs : List Char) (st : MState),
      StOk P st → PatOk P pat (st.openG.map Prod.fst) →
      ∀ r ∈ mrun pat cs st, StOk P r.1
  | [], cs, st, hst, _, r, hr => by
    simp only [mrun, List.mem_singleton] at hr
    subst hr; exact hst
  | .lit c :: rs, [], st, hst, hpat, r, hr => by simp [mrun] at hr
  | .lit c :: rs, d :: ds, st, hst, hpat, r, hr => by
    simp only [mrun] at hr
    split at hr
    · next hd =>
      subst hd
      exact mrun_stOk rs ds (st.add [d])
        (stOk_add hst (fun n hn => by simp [hpat.1 n hn]))
        (add_fst st [d] ▸ hpat.2) r hr
    · simp at hr
  | .one p :: rs, [], st, hst, hpat, r, hr => by simp [mrun] at hr
  | .one p :: rs, d :: ds, st, hst, hpat, r, hr => by
    simp only [mrun] at hr
    split at hr
    · next hd =>
      exact mrun_stOk rs ds (st.add [d])
        (stOk_add hst (fun n hn => by simp [hpat.1 n hn d hd]))
        (add_fst st [d] ▸ hpat.2) r hr
    · simp at hr
  | .star p :: rs, cs, st, hst, hpat, r, hr => by
    simp only [mrun] at hr
    rcases List.mem_flatMap.mp hr with ⟨pr, hpr, hr2⟩
    have hall : pr.1.all p = true := npSplits_all hpr
    refine mrun_stOk rs pr.2 (st.add pr.1)
      (stOk_add hst (fun n hn => ?_)) (add_fst st pr.1 ▸ hpat.2) r hr2
    rw [List.all_eq_true] at hall ⊢
    exact fun c hc => hpat.1 n hn c (hall c hc)
  | .plus p :: rs, cs, st, hst, hpat, r, hr => by
    simp only [mrun] at hr
    rcases List.mem_flatMap.mp hr with ⟨pr, hpr, hr2⟩
    have hpr2 := (List.mem_filter.mp hpr).1
    have hall : pr.1.all p = true := npSplits_all hpr2
    refine mrun_stOk rs pr.2 (st.add pr.1)
      (stOk_add hst (fun n hn => ?_)) (add_fst st pr.1 ▸ hpat.2) r hr2
    rw [List.all_eq_true] at hall ⊢
    exact fun c hc => hpat.1 n hn c (hall c hc)
  | .opt p :: rs, [], st, hst, hpat, r, hr => by
    simp only [mrun] at hr
    exact mrun_stOk rs [] st hst hpat.2 r hr
  | .opt p :: rs, d :: ds, st, hst, hpat, r, hr => by
    simp only [mrun] at hr
    split at hr
    · next hd =>
      rcases List.mem_append.mp hr with h | h
      · exact mrun_stOk rs ds (st.add [d])
          (stOk_add hst (fun n hn => by simp [hpat.1 n hn d hd]))
          (add_fst st [d] ▸ hpat.2) r h
      · exact mrun_stOk rs (d :: ds) st hst hpat.2 r h
    · exact mrun_stOk rs (d :: ds) st hst hpat.2 r hr
  | .gopen n :: rs, cs, st, hst, hpat, r, hr => by
    simp only [mrun] at hr
    have hpat2 : PatOk P rs (((n, ([] : List Char)) :: st.openG).map Prod.fst) := hpat
    have hok : StOk P { st with openG := (n, ([] : List Char)) :: st.openG } := by
      refine ⟨hst.1, ?_⟩
      intro g hg
      rcases List.mem_cons.mp hg with h | h
      · subst h; rfl
      · exact hst.2 g h
    exact mrun_stOk rs cs _ hok hpat2 r hr
  | .gclose m :: rs, cs, st, hst, hpat, r, hr => by
    simp only [mrun] at hr
    cases hop : st.openG with
    | nil => rw [hop] at hr; simp at hr
    | cons g gs =>
      rw [hop] at hr
      have hpat1 : PatOk P (.gclose m :: rs) ((g :: gs).map Prod.fst) := hop ▸ hpat
      have hpat2 : PatOk P rs (gs.map Prod.fst) := hpat1
      have hok : StOk P (⟨st.caps ++ [g], gs⟩ : MState) := by
        refine ⟨?_, ?_⟩
        · intro g2 hg2
          rcases List.mem_append.mp hg2 with h | h
          · exact hst.1 g2 h
          · rcases List.mem_singleton.mp h with rfl
            exact hst.2 g2 (by rw [hop]; exact List.mem_cons_self _ _)
        · intro g2 hg2
          exact hst.2 g2 (by rw [hop]; exact List.mem_cons_of_mem g hg2)
      exact mrun_stOk rs cs _ hok hpat2 r hr

/-- Captures returned by `searchCaps` satisfy any predicate family the
pattern respects. -/
theorem searchCaps_capsOk {P : Nat → Char → Bool} {pat : List RItem}
    (hpat : PatOk P pat []) :
    ∀ {cs : List Char} {caps : List (Nat × List Char)},
      searchCaps pat cs = some caps → CapsOk P caps := by
  intro cs
  induction cs with
  | nil =>
    intro caps h
    simp only [searchCaps] at h
    split at h
    · next r rest hm =>
      have hok := mrun_stOk (P := P) pat [] ⟨[], []⟩
        ⟨fun g hg => by simp at hg, fun g hg => by simp at hg⟩ hpat r
        (by rw [hm]; exact List.mem_cons_self r rest)
      exact (Option.some_inj.mp h) ▸ hok.1
    · exact absurd h (by simp)
  | cons c ds ih =>
    intro caps h
    simp only [searchCaps] at h
    split at h
    · next r rest hm =>
      have hok := mrun_stOk (P := P) pat (c :: ds) ⟨[], []⟩
        ⟨fun g hg => by simp at hg, fun g hg => by simp at hg⟩ hpat r
        (by rw [hm]; exact List.mem_cons_self r rest)
      exact (Option.some_inj.mp h) ▸ hok.1
    · exact ih h

theorem capture_all {P : Nat → Char → Bool} {caps : List (Nat × List Char)}
    (hok : CapsOk P caps) (n : Nat) : (capture caps n).all (P n) = true := by
  unfold capture
  split
  · next x hf =>
    have hx := List.find?_some hf
    have hmem := List.mem_of_find?_eq_some hf
    have hxn : x.1 = n := by simpa using hx
    exact hxn ▸ hok x hmem
  · rfl

/-- HTML escaping leaves a word character (`[A-Za-z0-9_]`) unchanged. -/
theorem htmlEscapeChar_word {c : Char} (h : isWordB c = true) :
    htmlEscapeChar c = [c] := by
  unfold htmlEscapeChar
  split_ifs with h1 h2 h3 h4 h5
  · subst h1; exact absurd h (by decide)
  · subst h2; exact absurd h (by decide)
  · subst h3; exact absurd h (by decide)
  · subst h4; exact absurd h (by decide)
  · subst h5; exact absurd h (by decide)
  · rfl

/-- HTML escaping is the identity on strings of word characters. -/
theorem htmlEscape_word : ∀ {cs : List Char}, cs.all isWordB = true →
    htmlEscape cs = cs
  | [], _ => rfl
  | c :: cs, h => by
    have hc : isWordB c = true := by
      rw [List.all_cons, Bool.and_eq_true] at h
      exact h.1
    have hcs : cs.all isWordB = true := by
      rw [List.all_cons, Bool.and_eq_true] at h
      exact h.2
    show htmlEscapeChar c ++ htmlEscape cs = c :: cs
    rw [htmlEscapeChar_word hc, htmlEscape_word hcs]
    rfl

theorem isUpperDigitB_word {c : Char} (h : isUpperDigitB c = true) :
    isWordB c = true := by
  unfold isUpperDigitB at h
  unfold isWordB
  rw [Bool.or_eq_true] at h
  rcases h with h1 | h1 <;> simp [h1]

theorem all_upperDigit_word {cs : List Char} (h : cs.all isUpperDigitB = true) :
    cs.all isWordB = true := by
  rw [List.all_eq_true] at h ⊢
  exact fun c hc => isUpperDigitB_word (h c hc)

/-- Stripping (`str.strip()`) keeps only characters of the original string. -/
theorem all_stripChars {p : Char → Bool} {cs : List Char} (h : cs.all p = true) :
    (stripChars cs).all p = true := by
  rw [List.all_eq_true] at h ⊢
  intro x hx
  apply h
  unfold stripChars at hx
  have h1 := List.mem_reverse.mp hx
  have h2 := (List.dropWhile_sublist (l := (cs.dropWhile isPyWhitespace).reverse)
    (p := isPyWhitespace)).subset h1
  have h3 := List.mem_reverse.mp h2
  exact (List.dropWhile_sublist (l := cs) (p := isPyWhitespace)).subset h3

theorem patOk_amount : PatOk amountPred amountPat [] := by
  unfold amountPat
  refine ⟨?_, ?_, ?_, ?_⟩
  · intro n hn; simp at hn
  · intro n hn; simp at hn
  · intro n hn; simp at hn
  · show PatOk amountPred
      [.star isDigitB, .opt (fun c => c = '.'), .plus isDigitB, .gclose 1,
       .star isPyWhitespace, .gopen 2, .plus isWordB, .gclose 2] [1]
    refine ⟨?_, ?_, ?_, ?_⟩
    · intro n hn c hc
      rcases List.mem_singleton.mp hn with rfl
      simp [amountPred, hc]
    · intro n hn c hc
      rcases List.mem_singleton.mp hn with rfl
      simp [amountPred, hc]
    · intro n hn c hc
      rcases List.mem_singleton.mp hn with rfl
      simp [amountPred, hc]
    · show PatOk amountPred [.star isPyWhitespace, .gopen 2, .plus isWordB, .gclose 2] []
      refine ⟨?_, ?_, ?_⟩
      · intro n hn; simp at hn
      · intro n hn c hc
        rcases List.mem_singleton.mp hn with rfl
        simp [amountPred, hc]
      · trivial

theorem patOk_code : PatOk codePred codePat [] := by
  unfold codePat
  refine ⟨?_, ?_, ?_, ?_, ?_, ?_, ?_⟩
  · intro n hn; simp at hn
  · intro n hn; simp at hn
  · intro n hn; simp at hn
  · intro n hn; simp at hn
  · intro n hn; simp at hn
  · intro n hn c hc
    exact hc
  · trivial

/-- Every field extracted by a successful parse is character-bounded: the
token consists of `[A-Za-z0-9_]` characters, the code of `[A-Z0-9]`. -/
theorem parseFields_bounds {text : List Char} {f : ParsedFields}
    (h : parseFields text = some f) :
    f.token.all isWordB = true ∧ f.code.all isUpperDigitB = true := by
  unfold parseFields at h
  split at h
  · exact absurd h (by simp)
  · split at h
    · exact absurd h (by simp)
    · split at h
      · exact absurd h (by simp)
      · next caps1 hc1 =>
        split at h
        · exact absurd h (by simp)
        · next caps2 hc2 =>
          split at h
          · exact absurd h (by simp)
          · next caps3 hc3 =>
            have hf := Option.some_inj.mp h
            subst hf
            constructor
            · refine all_stripChars ?_
              have hok := searchCaps_capsOk patOk_amount hc1
              exact capture_all hok 2
            · refine all_stripChars ?_
              have hok := searchCaps_capsOk patOk_code hc3
              exact capture_all hok 1

/-! ### Dispatcher lemmas -/

theorem forward_targets_map (sendOk : Nat → Bool) :
    ∀ ts : List Nat, (forward_to_targets sendOk ts).map (fun a => a.target) = ts
  | [] => rfl
  | t :: ts => by
    simp only [forward_to_targets, List.map_cons]
    rw [forward_targets_map sendOk ts]

theorem forward_targets_mem (sendOk : Nat → Bool) :
    ∀ ts : List Nat, ∀ a ∈ forward_to_targets sendOk ts,
      a.ok = sendOk a.target ∧ a.delayAfter = (if a.ok then 1 else 2)
  | [], a, ha => by simp [forward_to_targets] at ha
  | t :: ts, a, ha => by
    rcases List.mem_cons.mp ha with rfl | ha2
    · exact ⟨rfl, rfl⟩
    · exact forward_targets_mem sendOk ts a ha2

/-! ## Claim theorems -/

/-- C3 (code_bug evidence): two accepted back-to-back messages can both be
inside `forward_to_targets` at once — the interleaving `raceActs` reaches a
state with two overlapping dispatch operations, because `is_forwarding` is
only set after the first dispatch's `await` completes.  The spec requires
that no two dispatch attempts proceed concurrently. -/
theorem claim3_overlapping_dispatch :
    Reaches cfg60 init sRace ∧ dispatchCount sRace.tasks = 2
    ∧ sRace.tasks.get? 0 = some (.hSending 1 0)
    ∧ sRace.tasks.get? 1 = some (.hSending 2 0) :=
  ⟨reaches_sRace, rfl, rfl, rfl⟩

/-- C1 (counterexample): two accepted events arriving back-to-back (both at
time 0, interval 0 s < rate limit 60 s) can BOTH be dispatched immediately,
with nothing enqueued — refuting "exactly the first is dispatched
immediately and the remaining N−1 are appended to the pending queue". -/
theorem claim1_counterexample :
    Reaches cfg60 init sBothImm
    ∧ arrivalTimes sBothImm.events = [0, 0]
    ∧ countImmediate sBothImm.events = 2
    ∧ countEnqueued sBothImm.events = 0 :=
  ⟨reaches_sBothImm, rfl, rfl, rfl⟩

/-- C1 (amended): in every reachable state the payloads popped by drain
tasks, followed by the remaining queue, equal the enqueued payloads in
arrival order (queued dispatch happens in FIFO arrival order), and each
drain task separates consecutive queued dispatch starts by at least the
configured queue delay; moreover there is an interleaving of the
back-to-back scenario that produces exactly one immediate dispatch and one
queued dispatch 120 s (= queue delay) later.  The code does not guarantee
this outcome for every interleaving (see the counterexample). -/
theorem claim1_rate_limit_amended :
    (∀ (cfg : Cfg) (s : Sched), Reaches cfg init s →
       qsList s.events ++ s.queue = enqList s.events
       ∧ ∀ i, List.Chain' (fun a b => a + cfg.queueDelay ≤ b) (qsTimes i s.events))
    ∧ (Reaches cfg60 init sGood
       ∧ arrivalTimes sGood.events = [0, 0]
       ∧ countImmediate sGood.events = 1
       ∧ enqList sGood.events = [2]
       ∧ qsTimes 1 sGood.events = [120]) := by
  constructor
  · intro cfg s h
    obtain ⟨hT, hF, hG, hSp⟩ := invariants_reachable h
    exact ⟨hF, hSp⟩
  · exact ⟨reaches_sGood, rfl, rfl, rfl, by decide⟩

theorem claim1_rate_limit_amended_witness :
    Reaches cfg60 init sGood
    ∧ qsList sGood.events ++ sGood.queue = enqList sGood.events
    ∧ List.Chain' (fun a b => a + cfg60.queueDelay ≤ b) (qsTimes 1 sGood.events) :=
  ⟨reaches_sGood,
   (claim1_rate_limit_amended.1 cfg60 sGood reaches_sGood).1,
   (claim1_rate_limit_amended.1 cfg60 sGood reaches_sGood).2 1⟩

/-- C2 (counterexample): the interleaving `twoDrainActs` reaches a state
with two live drain tasks (both mid-loop, sleeping over the queue) — the
handler spawns `process_queue` after every immediate dispatch with no
`drainTaskRunning` guard, so two drain tasks can run concurrently. -/
theorem claim2_counterexample :
    Reaches cfg60 init sTwoDrains ∧ drainCount sTwoDrains.tasks = 2
    ∧ sTwoDrains.tasks.get? 1 = some (.dSleeping 120)
    ∧ sTwoDrains.tasks.get? 4 = some (.dSleeping 181) :=
  ⟨reaches_sTwoDrains, rfl, rfl, rfl⟩

/-- C2 (amended): a new drain task is started unconditionally at every
completed immediate dispatch (the live-drain count rises by exactly one),
and two drain tasks can be live concurrently; `is_forwarding` is not a
drain guard — it is set by every immediate dispatch and cleared by any
drain task that observes an empty queue. -/
theorem claim2_drain_spawn_amended :
    (∀ (cfg : Cfg) (s t : Sched) (p tm : Nat), Step cfg s t →
       t.events = s.events ++ [Ev.immediateEnd p tm] →
       drainCount t.tasks = drainCount s.tasks + 1)
    ∧ (Reaches cfg60 init sTwoDrains ∧ 2 ≤ drainCount sTwoDrains.tasks) :=
  ⟨fun _ _ _ _ _ hs hev => drain_spawned_per_dispatch hs hev,
   reaches_sTwoDrains, by decide⟩

theorem claim2_drain_spawn_amended_witness :
    Step cfg60 sW0 sW1 ∧ sW1.events = sW0.events ++ [Ev.immediateEnd 9 4]
    ∧ drainCount sW1.tasks = drainCount sW0.tasks + 1 := by
  have hstep : Step cfg60 sW0 sW1 :=
    stepExec_step (a := Act.hFinish 0) rfl
  exact ⟨hstep, rfl, claim2_drain_spawn_amended.1 cfg60 sW0 sW1 9 4 hstep rfl⟩

/-- C10: `last_forward_time` is written only when a handler's immediate
dispatch completes — a step changes it only if that step logs an
`immediateEnd` event (drain-task dispatches never touch it) — and an
immediate dispatch can start at the very instant a queued dispatch ended
(no minimum spacing): in `sAdjacent` a queued dispatch ends at t = 120 and
an immediate dispatch starts at t = 120. -/
theorem claim10_last_forward_time :
    (∀ (cfg : Cfg) (s t : Sched), Step cfg s t →
       t.last_forward_time ≠ s.last_forward_time →
       ∃ p tm, t.events = s.events ++ [Ev.immediateEnd p tm])
    ∧ (Reaches cfg60 init sAdjacent
       ∧ queuedEndTimes sAdjacent.events = [120]
       ∧ immStartTimes sAdjacent.events = [0, 120]) :=
  ⟨fun _ _ _ hs hne => last_forward_written_by_handler hs hne,
   reaches_sAdjacent, rfl, rfl⟩

theorem claim10_last_forward_time_witness :
    Step cfg60 sW0 sW1 ∧ sW1.last_forward_time ≠ sW0.last_forward_time
    ∧ ∃ p tm, sW1.events = sW0.events ++ [Ev.immediateEnd p tm] := by
  have hstep : Step cfg60 sW0 sW1 :=
    stepExec_step (a := Act.hFinish 0) rfl
  exact ⟨hstep, by decide,
    claim10_last_forward_time.1 cfg60 sW0 sW1 hstep (by decide)⟩

/-- C4 (counterexample): the spec's two-event pairing scenario yields zero
forwarded payloads, not one — the amount/remaining first event does not
match the single implemented three-line variant (and its real emoji and
`±` do not match the mojibake pattern literals), and the claim event is
skipped by the hyperlink filter. -/
theorem claim4_counterexample :
    parse_and_format_message pairFirstEvt = none
    ∧ handlerDecision pairSecondEvt = none := ⟨rfl, rfl⟩

/-- C4 (amended): the code implements no two-event pairing at all — there
is no pending-pair buffer; the amount/remaining event is rejected by the
parser, and every event whose text contains a hyperlink is skipped by the
handler, so the spec's pairing scenario forwards zero payloads (the claim's
"second event with no pending first event is rejected" half holds
trivially). -/
theorem claim4_no_pairing :
    parse_and_format_message pairFirstEvt = none
    ∧ (∀ raw : String, containsLink raw.toList = true → handlerDecision raw = none)
    ∧ handlerDecision pairSecondEvt = none := by
  refine ⟨rfl, ?_, rfl⟩
  intro raw h
  unfold handlerDecision
  rw [if_pos h]

theorem claim4_no_pairing_witness :
    containsLink pairSecondEvt.toList = true
    ∧ handlerDecision pairSecondEvt = none :=
  ⟨rfl, claim4_no_pairing.2.1 pairSecondEvt rfl⟩

/-- C5 (counterexample): the formatter does not escape the token symbol — a
canonical record whose token is `<b>` produces a body containing the raw
`<b>` markup and not its escaped form, and escaping is not the identity on
that token. -/
theorem claim5_counterexample :
    containsSeq "<b>".toList (format_body tokenInjRecord) = true
    ∧ containsSeq "&lt;b&gt;".toList (format_body tokenInjRecord) = false
    ∧ htmlEscape "<b>".toList ≠ "<b>".toList :=
  ⟨rfl, rfl, by decide⟩

/-- C5 (amended): only the code goes through `html.escape`; the token is
interpolated verbatim.  However, every record the parser actually produces
has a token drawn from `[A-Za-z0-9_]` and a code from `[A-Z0-9]`, on which
HTML escaping is the identity, so markup injection through either field is
impossible for parser-produced records. -/
theorem claim5_escape_amended :
    ∀ (text : String) (f : ParsedFields), parseFields text.toList = some f →
      parse_and_format_message text = some (String.mk (format_body f))
      ∧ htmlEscape f.token = f.token
      ∧ htmlEscape f.code = f.code := by
  intro text f h
  refine ⟨by unfold parse_and_format_message; rw [h]; rfl, ?_, ?_⟩
  · exact htmlEscape_word (parseFields_bounds h).1
  · exact htmlEscape_word (all_upperDigit_word (parseFields_bounds h).2)

theorem claim5_escape_amended_witness :
    parseFields msgOk.toList = some fOk
    ∧ parse_and_format_message msgOk = some (String.mk (format_body fOk))
    ∧ htmlEscape fOk.token = fOk.token
    ∧ htmlEscape fOk.code = fOk.code :=
  ⟨rfl, (claim5_escape_amended msgOk fOk rfl).1,
   (claim5_escape_amended msgOk fOk rfl).2.1,
   (claim5_escape_amended msgOk fOk rfl).2.2⟩

/-- C6 (counterexample): a message with FOUR normalized non-empty lines —
differing from the variant's three — is accepted, because the source only
rejects `len(lines) < 3` and ignores extra lines. -/
theorem claim6_counterexample :
    (normalizeLines msgFour.toList).length = 4
    ∧ (parse_and_format_message msgFour).isSome = true :=
  ⟨rfl, rfl⟩

/-- C6 (amended): acceptance requires at least three normalized non-empty
lines and all three patterns to match on the first three lines (partial
matches are rejected); lines beyond the third are ignored, so a line count
above three does not cause rejection. -/
theorem claim6_accept_requires_patterns :
    ∀ t : String, (parse_and_format_message t).isSome = true →
      3 ≤ (normalizeLines t.toList).length
      ∧ (searchCaps amountPat ((normalizeLines t.toList).getD 0 [])).isSome = true
      ∧ (searchCaps claimedPat ((normalizeLines t.toList).getD 1 [])).isSome = true
      ∧ (searchCaps codePat ((normalizeLines t.toList).getD 2 [])).isSome = true := by
  intro t h
  unfold parse_and_format_message at h
  obtain ⟨f, hf⟩ : ∃ f, parseFields t.toList = some f := by
    cases hp : parseFields t.toList with
    | none => rw [hp] at h; simp at h
    | some f => exact ⟨f, rfl⟩
  unfold parseFields at hf
  split at hf
  · exact absurd hf (by simp)
  · split at hf
    · exact absurd hf (by simp)
    · next hlen =>
      refine ⟨Nat.le_of_not_lt hlen, ?_⟩
      split at hf
      · exact absurd hf (by simp)
      · next caps1 hc1 =>
        refine ⟨by rw [hc1]; rfl, ?_⟩
        split at hf
        · exact absurd hf (by simp)
        · next caps2 hc2 =>
          refine ⟨by rw [hc2]; rfl, ?_⟩
          split at hf
          · exact absurd hf (by simp)
          · next caps3 hc3 => rw [hc3]; rfl

theorem claim6_accept_requires_patterns_witness :
    (parse_and_format_message msgOk).isSome = true
    ∧ 3 ≤ (normalizeLines msgOk.toList).length
    ∧ (searchCaps amountPat ((normalizeLines msgOk.toList).getD 0 [])).isSome = true
    ∧ (searchCaps claimedPat ((normalizeLines msgOk.toList).getD 1 [])).isSome = true
    ∧ (searchCaps codePat ((normalizeLines msgOk.toList).getD 2 [])).isSome = true :=
  ⟨rfl, claim6_accept_requires_patterns msgOk rfl⟩

/-- C7: the dispatcher attempts exactly one send per configured target, in
the configured order, regardless of failures (the attempt list projects to
the target list for every outcome oracle); every attempt carries its pacing
delay, 1 s after a success and 2 s after a failure, and a failed attempt's
delay is strictly longer than a successful one's. -/
theorem claim7_dispatch_isolation :
    ∀ (sendOk : Nat → Bool) (targets : List Nat),
      (forward_to_targets sendOk targets).map (fun a => a.target) = targets
      ∧ (∀ a ∈ forward_to_targets sendOk targets,
          a.ok = sendOk a.target ∧ a.delayAfter = (if a.ok then 1 else 2))
      ∧ (∀ a ∈ forward_to_targets sendOk targets,
         ∀ b ∈ forward_to_targets sendOk targets,
          a.ok = false → b.ok = true → b.delayAfter < a.delayAfter) := by
  intro sendOk targets
  refine ⟨forward_targets_map sendOk targets, forward_targets_mem sendOk targets, ?_⟩
  intro a ha b hb haf hbt
  have hda := (forward_targets_mem sendOk targets a ha).2
  have hdb := (forward_targets_mem sendOk targets b hb).2
  rw [haf] at hda
  rw [hbt] at hdb
  simp only [if_false, if_true] at hda hdb
  rw [hda, hdb]
  exact Nat.one_lt_two

theorem claim7_dispatch_isolation_witness :
    (forward_to_targets failOnOne [1, 2]).map (fun a => a.target) = [1, 2]
    ∧ ({ target := 2, ok := true, delayAfter := 1 } : SendAttempt)
        ∈ forward_to_targets failOnOne [1, 2]
    ∧ ({ target := 1, ok := false, delayAfter := 2 } : SendAttempt)
        ∈ forward_to_targets failOnOne [1, 2]
    ∧ (1 : Nat) < 2 :=
  ⟨(claim7_dispatch_isolation failOnOne [1, 2]).1,
   by decide, by decide,
   (claim7_dispatch_isolation failOnOne [1, 2]).2.2
     ⟨1, false, 2⟩ (by decide) ⟨2, true, 1⟩ (by decide) rfl rfl⟩

/-- C8: the parse embedding is a total function — every input string,
including the empty and whitespace-only ones, yields either a formatted
body or `none`; the edge inputs are rejected with `none`, not an error. -/
theorem claim8_parse_total :
    (∀ t : String, parse_and_format_message t = none
        ∨ ∃ b, parse_and_format_message t = some b)
    ∧ parse_and_format_message "" = none
    ∧ parse_and_format_message " \n \n \n" = none := by
  refine ⟨?_, rfl, rfl⟩
  intro t
  cases h : parse_and_format_message t with
  | none => exact Or.inl rfl
  | some b => exact Or.inr ⟨b, rfl⟩

/-- C9: a rejected inbound event (hyperlink filter or parse failure) leaves
the forwarding state completely unchanged — no dispatch, no enqueue, no
change to `last_forward_time` or `is_forwarding`. -/
theorem claim9_reject_no_side_effect :
    ∀ (cfg : Cfg) (st : FwdState) (now : Nat) (raw : String),
      handlerDecision raw = none →
      new_message_handler cfg st now raw = (st, HandlerEffect.rejected) := by
  intro cfg st now raw h
  simp [new_message_handler, h]

theorem claim9_reject_no_side_effect_witness :
    handlerDecision "Visit https://spam.example now" = none
    ∧ new_message_handler cfg60 ⟨["x"], true, 5⟩ 7 "Visit https://spam.example now"
        = (⟨["x"], true, 5⟩, HandlerEffect.rejected) :=
  ⟨rfl, claim9_reject_no_side_effect cfg60 ⟨["x"], true, 5⟩ 7 _ rfl⟩

end Cryptobox
